import Mathlib

/-!
Shallow embedding of the toyweng markup pipeline:
lexer (src/lexer/mod.rs, src/lexer/token.rs), DOM (src/dom.rs) and the
recursive-descent parser (src/parser/mod.rs).

Conventions of the embedding:
* The source buffer and every borrowed substring is a `List Char`.
* Rust byte indexing is modelled as character indexing; every token the
  lexer slices past is ASCII, so the two agree on all the code paths the
  parser exercises.
* The mutually recursive parser loops take an explicit fuel argument and
  return `none` when the fuel runs out: a run that returns `some r` is a
  run of the real program returning `r`, while `none` for every fuel
  means the Rust recursion never returns.
-/

/-- Unicode White_Space test, mirroring the `char::is_whitespace` used by
Rust `str::trim_start` and `str::trim_end` (code points listed explicitly). -/
def is_whitespace (c : Char) : Bool :=
  let n := c.toNat
  (9 ≤ n && n ≤ 13) || n == 32 || n == 133 || n == 160 || n == 5760 ||
  (8192 ≤ n && n ≤ 8202) || n == 8232 || n == 8233 || n == 8239 || n == 8287 ||
  n == 12288

/-- Embedding of Rust `str::trim_start`: drop leading whitespace. -/
def trim_start (s : List Char) : List Char :=
  s.dropWhile is_whitespace

/-- Embedding of Rust `str::trim_end`: drop trailing whitespace. -/
def trim_end (s : List Char) : List Char :=
  (s.reverse.dropWhile is_whitespace).reverse

/-- Rust `char::is_alphabetic`, restricted to the ASCII letters actually
used by the repository (tag and attribute names). -/
def is_alphabetic (c : Char) : Bool :=
  (65 ≤ c.toNat && c.toNat ≤ 90) || (97 ≤ c.toNat && c.toNat ≤ 122)

/-- Rust `char::is_alphanumeric`, restricted to ASCII letters and digits. -/
def is_alphanumeric (c : Char) : Bool :=
  is_alphabetic c || (48 ≤ c.toNat && c.toNat ≤ 57)

/-- Embedding of `Token` from src/lexer/token.rs. -/
inductive Token where
  | OpenTagStart
  | CloseTagStart
  | TagEnd
  | Quote
  | Equals
  | Identifier (id : List Char)
  | EOF
  deriving DecidableEq, Repr

namespace Token

/-- Embedding of `Token::same_type`: discriminant comparison, i.e. kind
equality ignoring the identifier payload. -/
def same_type (a b : Token) : Bool :=
  match a, b with
  | .OpenTagStart, .OpenTagStart => true
  | .CloseTagStart, .CloseTagStart => true
  | .TagEnd, .TagEnd => true
  | .Quote, .Quote => true
  | .Equals, .Equals => true
  | .Identifier _, .Identifier _ => true
  | .EOF, .EOF => true
  | _, _ => false

end Token

/-- Embedding of `LexerError` from src/lexer/mod.rs. -/
inductive LexerError where
  | UnknownLexeme (rem : List Char)
  deriving DecidableEq, Repr

namespace Lexer

/-- Embedding of `Lexer::peek`: trim leading whitespace (a persistent state
change), then classify the next character without consuming it.  Returns
the result together with the new lexer state. -/
def peek (s : List Char) : Except LexerError Token × List Char :=
  let t := trim_start s
  match t with
  | [] => (.ok .EOF, t)
  | '<' :: '/' :: _ => (.ok .CloseTagStart, t)
  | '<' :: _ => (.ok .OpenTagStart, t)
  | '>' :: _ => (.ok .TagEnd, t)
  | '"' :: _ => (.ok .Quote, t)
  | '=' :: _ => (.ok .Equals, t)
  | c :: _ => if is_alphabetic c then (.ok (.Identifier []), t)
              else (.error (.UnknownLexeme t), t)

/-- Embedding of `Lexer::take_identifier`: cut off the maximal leading run
of alphanumeric characters. -/
def take_identifier (s : List Char) : List Char × List Char :=
  let n := s.findIdx (fun c => !(is_alphanumeric c))
  (s.take n, s.drop n)

/-- Embedding of `Lexer::take`: advance the cursor past a token previously
obtained from `peek`, realizing the identifier payload. -/
def take (t : Token) (s : List Char) : Token × List Char :=
  match t with
  | .EOF => (t, s)
  | .Identifier _ =>
      let p := take_identifier s
      (.Identifier p.1, p.2)
  | .CloseTagStart => (t, s.drop 2)
  | _ => (t, s.drop 1)

/-- Embedding of `Lexer::next`: peek then take. -/
def next (s : List Char) : Except LexerError Token × List Char :=
  match peek s with
  | (.error e, s₁) => (.error e, s₁)
  | (.ok t, s₁) =>
      let p := take t s₁
      (.ok p.1, p.2)

/-- Embedding of `Lexer::text_till`: trim leading whitespace, scan to the
first occurrence of the delimiter (or end of input), return that span with
trailing whitespace trimmed, and advance the cursor past the span, leaving
the delimiter unconsumed. -/
def text_till (c : Char) (s : List Char) : List Char × List Char :=
  let t := trim_start s
  let n := t.findIdx (fun x => x == c)
  (trim_end (t.take n), t.drop n)

end Lexer

/-- Embedding of `AttrMap` from src/dom.rs (a `HashMap`), as an association
list with unique keys. -/
abbrev AttrMap := List (List Char × List Char)

/-- HashMap-style insert: overwrite the value when the key is present,
append otherwise. -/
def AttrMap.insert (m : AttrMap) (k v : List Char) : AttrMap :=
  if m.any (fun p => p.1 == k) then
    m.map (fun p => if p.1 == k then (k, v) else p)
  else
    m ++ [(k, v)]

/-- Embedding of `Node` from src/dom.rs, flattened along the two
constructor helpers `text` and `elem` (the only ways the parser builds
nodes): a text leaf has no children by construction. -/
inductive Node where
  | text (data : List Char)
  | elem (tag_name : List Char) (attributes : AttrMap) (children : List Node)
  deriving Repr

/-- Embedding of `ParseError` from src/parser/mod.rs. -/
inductive ParseError where
  | LexerError (e : LexerError)
  | UnexpectedToken (expected got : Token) (src : List Char)
  | TagMismatch (opened closed : List Char)
  deriving DecidableEq, Repr

namespace Parser

/-- Embedding of `Parser::next_token`: pull the next token, wrapping lexer
errors into the parse-error taxonomy. -/
def next_token (s : List Char) : Except ParseError (Token × List Char) :=
  match Lexer.next s with
  | (.error e, _) => .error (.LexerError e)
  | (.ok t, s₁) => .ok (t, s₁)

/-- Embedding of `Parser::eat`: snapshot the remainder, pull the next
token and compare it with the expected one by kind only. -/
def eat (expected : Token) (s : List Char) :
    Except ParseError (Token × List Char) :=
  let src := s
  match next_token s with
  | .error e => .error e
  | .ok (got, s₁) =>
      if Token.same_type got expected then .ok (got, s₁)
      else .error (.UnexpectedToken expected got src)

/-- Embedding of `Parser::eat_ident`: expect an identifier token and
return its payload. -/
def eat_ident (s : List Char) : Except ParseError (List Char × List Char) :=
  let src := s
  match next_token s with
  | .error e => .error e
  | .ok (.Identifier id, s₁) => .ok (id, s₁)
  | .ok (got, _) => .error (.UnexpectedToken (.Identifier []) got src)

/-- Embedding of `Parser::attribute`: an identifier, optionally followed
by equals, quote, raw value text and a closing quote. -/
def attrib (s : List Char) :
    Except ParseError ((List Char × List Char) × List Char) :=
  match eat_ident s with
  | .error e => .error e
  | .ok (attr_name, s₁) =>
    match Lexer.peek s₁ with
    | (.error e, _) => .error (.LexerError e)
    | (.ok .Equals, s₂) =>
      match eat .Equals s₂ with
      | .error e => .error e
      | .ok (_, s₃) =>
        match eat .Quote s₃ with
        | .error e => .error e
        | .ok (_, s₄) =>
          let p := Lexer.text_till '"' s₄
          match eat .Quote p.2 with
          | .error e => .error e
          | .ok (_, s₅) => .ok ((attr_name, p.1), s₅)
    | (.ok _, s₂) => .ok ((attr_name, []), s₂)

/-- Embedding of `Parser::attributes`: loop reading attributes until the
next token is tag-end; the Rust accumulator variable becomes the `attrs`
argument, and the loop becomes fuelled recursion. -/
def attributes : Nat → AttrMap → List Char →
    Option (Except ParseError (AttrMap × List Char))
  | 0, _, _ => none
  | fuel+1, attrs, s =>
    match Lexer.peek s with
    | (.error e, _) => some (.error (.LexerError e))
    | (.ok .TagEnd, s₁) => some (.ok (attrs, s₁))
    | (.ok _, s₁) =>
      match attrib s₁ with
      | .error e => some (.error e)
      | .ok (kv, s₂) => attributes fuel (AttrMap.insert attrs kv.1 kv.2) s₂

mutual

/-- Embedding of `Parser::node`: dispatch on the peeked token — an element
when it is open-tag-start, otherwise a raw text run up to the next
open angle bracket. -/
def node : Nat → List Char → Option (Except ParseError (Node × List Char))
  | 0, _ => none
  | fuel+1, s =>
    match Lexer.peek s with
    | (.ok .OpenTagStart, s₁) => element fuel s₁
    | (_, s₁) =>
        let p := Lexer.text_till '<' s₁
        some (.ok (.text p.1, p.2))

/-- Embedding of `Parser::element`: open tag, attributes, children,
close tag, then the tag-name match check. -/
def element : Nat → List Char → Option (Except ParseError (Node × List Char))
  | 0, _ => none
  | fuel+1, s =>
    match eat .OpenTagStart s with
    | .error e => some (.error e)
    | .ok (_, s₁) =>
    match eat_ident s₁ with
    | .error e => some (.error e)
    | .ok (tag_name, s₂) =>
    match attributes fuel [] s₂ with
    | none => none
    | some (.error e) => some (.error e)
    | some (.ok (attrs, s₃)) =>
    match eat .TagEnd s₃ with
    | .error e => some (.error e)
    | .ok (_, s₄) =>
    match nodes fuel s₄ with
    | none => none
    | some (.error e) => some (.error e)
    | some (.ok (children, s₅)) =>
    match eat .CloseTagStart s₅ with
    | .error e => some (.error e)
    | .ok (_, s₆) =>
    match eat_ident s₆ with
    | .error e => some (.error e)
    | .ok (close_tag_name, s₇) =>
    match eat .TagEnd s₇ with
    | .error e => some (.error e)
    | .ok (_, s₈) =>
    if tag_name ≠ close_tag_name then
      some (.error (.TagMismatch tag_name close_tag_name))
    else
      some (.ok (.elem tag_name attrs children, s₈))

/-- Embedding of `Parser::nodes`: loop collecting child nodes until the
peeked token is close-tag-start. -/
def nodes : Nat → List Char →
    Option (Except ParseError (List Node × List Char))
  | 0, _ => none
  | fuel+1, s =>
    match Lexer.peek s with
    | (.ok .CloseTagStart, s₁) => some (.ok ([], s₁))
    | (_, s₁) =>
      match node fuel s₁ with
      | none => none
      | some (.error e) => some (.error e)
      | some (.ok (n, s₂)) =>
        match nodes fuel s₂ with
        | none => none
        | some (.error e) => some (.error e)
        | some (.ok (ns, s₃)) => some (.ok (n :: ns, s₃))

end

end Parser

/-- Embedding of the public entry point `parse`: run `Parser::node` on the
whole source and discard the final lexer state. -/
def parse (fuel : Nat) (s : List Char) : Option (Except ParseError Node) :=
  match Parser.node fuel s with
  | none => none
  | some (.error e) => some (.error e)
  | some (.ok (n, _)) => some (.ok n)

/-- Convenience: the character list of a string literal. -/
def chars (s : String) : List Char :=
  s.toList

/-- A successful run of one activation of `Parser::element` on state `s`
that reaches the final tag-name comparison: the open-tag-start and the
opening identifier `o` were consumed, attributes, tag-end and children
succeeded, and then the full closing-tag syntax (close-tag-start,
identifier `c`, tag-end) was consumed, leaving the cursor at `s₈`. -/
def ElementFrame (fuel : Nat) (s o c : List Char) : Prop :=
  ∃ t₀ s₁ s₂ attrs s₃ t₁ s₄ cs s₅ t₂ s₆ s₇ t₃ s₈,
    Parser.eat .OpenTagStart s = .ok (t₀, s₁) ∧
    Parser.eat_ident s₁ = .ok (o, s₂) ∧
    Parser.attributes fuel [] s₂ = some (.ok (attrs, s₃)) ∧
    Parser.eat .TagEnd s₃ = .ok (t₁, s₄) ∧
    Parser.nodes fuel s₄ = some (.ok (cs, s₅)) ∧
    Parser.eat .CloseTagStart s₅ = .ok (t₂, s₆) ∧
    Parser.eat_ident s₆ = .ok (c, s₇) ∧
    Parser.eat .TagEnd s₇ = .ok (t₃, s₈)

/-!
Document model for the whitespace-insensitivity claim: an abstract
document tree, which can be rendered to source text with arbitrary
whitespace between tags, and whose canonical parse tree is computable.
-/

mutual

/-- An abstract document: a text run or an element with a tag name, an
attribute list and children. -/
inductive Doc where
  | textD (t : List Char)
  | elemD (name : List Char) (attrs : List (List Char × List Char))
      (children : DocList)

/-- A list of sibling documents. -/
inductive DocList where
  | nilD
  | consD (d : Doc) (ds : DocList)

end

mutual

/-- Size measure of a document, used as a fuel bound. -/
def sizeD : Doc → Nat
  | .textD _ => 1
  | .elemD _ attrs cs => attrs.length + 3 + sizeL cs

/-- Size measure of a sibling list. -/
def sizeL : DocList → Nat
  | .nilD => 1
  | .consD d ds => sizeD d + sizeL ds + 1

end

mutual

/-- The canonical parse tree of a document. -/
def treeOf : Doc → Node
  | .textD t => .text t
  | .elemD n as cs =>
      .elem n (as.foldl (fun m kv => AttrMap.insert m kv.1 kv.2) []) (treesOf cs)

/-- The canonical parse trees of a sibling list. -/
def treesOf : DocList → List Node
  | .nilD => []
  | .consD d ds => treeOf d :: treesOf ds

end

/-- The fixed rendering of an attribute list inside an open tag: a single
space, the name, an equals sign and the double-quoted value, for each
attribute in order. -/
def renderAttrs (as : List (List Char × List Char)) : List Char :=
  as.foldr (fun kv acc => ' ' :: (kv.1 ++ '=' :: '"' :: (kv.2 ++ '"' :: acc))) []

/-- Every character of the list is whitespace. -/
def AllWs (w : List Char) : Prop := ∀ c ∈ w, is_whitespace c = true

mutual

/-- The rendering relation: a document together with one admissible
rendering of it.  A text run renders to exactly its content; an element
renders to its open tag (with the fixed attribute rendering), a rendering
of its children, and its close tag.  All whitespace freedom lives in the
sibling-list relation. -/
inductive RD : Doc → List Char → Prop where
  | textR (t : List Char) : RD (.textD t) t
  | elemR (n : List Char) (as : List (List Char × List Char)) (cs : DocList)
      (inner : List Char) :
      RDL cs inner →
      RD (.elemD n as cs)
        ('<' :: (n ++ (renderAttrs as ++ '>' ::
          (inner ++ '<' :: '/' :: (n ++ ['>'])))))

/-- Renderings of a sibling list: arbitrary whitespace before each child
and after the last one — exactly the positions between tags. -/
inductive RDL : DocList → List Char → Prop where
  | nilR (w : List Char) : AllWs w → RDL .nilD w
  | consR (d : Doc) (ds : DocList) (w s rest : List Char) :
      AllWs w → RD d s → RDL ds rest → RDL (.consD d ds) (w ++ (s ++ rest))

end

/-- A well-formed tag or attribute name: nonempty, all alphanumeric,
starting with a letter. -/
def wfName (n : List Char) : Bool :=
  !n.isEmpty && n.all is_alphanumeric && is_alphabetic (n.headD ' ')

/-- A well-formed text run: nonempty, already trimmed on both sides, and
free of the open angle bracket. -/
def wfText (t : List Char) : Bool :=
  !t.isEmpty && (trim_start t == t) && (trim_end t == t) &&
  t.all (fun c => !(c == '<'))

/-- A well-formed attribute: a well-formed name, and a value that is
already trimmed on both sides and free of double quotes. -/
def wfAttr (kv : List Char × List Char) : Bool :=
  wfName kv.1 && kv.2.all (fun c => !(c == '"')) &&
  (trim_start kv.2 == kv.2) && (trim_end kv.2 == kv.2)

/-- Whether a document is a text run. -/
def isTextB : Doc → Bool
  | .textD _ => true
  | .elemD _ _ _ => false

/-- Whether a sibling list starts with a text run. -/
def headTextB : DocList → Bool
  | .nilD => false
  | .consD d _ => isTextB d

mutual

/-- Well-formedness of a document: names and attributes well formed and
children well formed. -/
def wfD : Doc → Bool
  | .textD t => wfText t
  | .elemD n as cs => wfName n && as.all wfAttr && wfL cs

/-- Well-formedness of a sibling list; adjacent text runs are excluded,
since the parser necessarily merges them into one text node. -/
def wfL : DocList → Bool
  | .nilD => true
  | .consD d ds => wfD d && wfL ds && !(isTextB d && headTextB ds)

end

/-! ### Unfolding lemmas for the fuelled parser -/

/-- Unfolding of `Parser.node` at positive fuel. -/
theorem node_succ (fuel : Nat) (s : List Char) :
    Parser.node (fuel+1) s =
      match Lexer.peek s with
      | (.ok .OpenTagStart, s₁) => Parser.element fuel s₁
      | (_, s₁) =>
          let p := Lexer.text_till '<' s₁
          some (.ok (.text p.1, p.2)) := rfl

/-- Unfolding of `Parser.nodes` at positive fuel. -/
theorem nodes_succ (fuel : Nat) (s : List Char) :
    Parser.nodes (fuel+1) s =
      match Lexer.peek s with
      | (.ok .CloseTagStart, s₁) => some (.ok ([], s₁))
      | (_, s₁) =>
        match Parser.node fuel s₁ with
        | none => none
        | some (.error e) => some (.error e)
        | some (.ok (n, s₂)) =>
          match Parser.nodes fuel s₂ with
          | none => none
          | some (.error e) => some (.error e)
          | some (.ok (ns, s₃)) => some (.ok (n :: ns, s₃)) := rfl

/-- Unfolding of `Parser.element` at positive fuel. -/
theorem element_succ (fuel : Nat) (s : List Char) :
    Parser.element (fuel+1) s =
      (match Parser.eat .OpenTagStart s with
      | .error e => some (.error e)
      | .ok (_, s₁) =>
      match Parser.eat_ident s₁ with
      | .error e => some (.error e)
      | .ok (tag_name, s₂) =>
      match Parser.attributes fuel [] s₂ with
      | none => none
      | some (.error e) => some (.error e)
      | some (.ok (attrs, s₃)) =>
      match Parser.eat .TagEnd s₃ with
      | .error e => some (.error e)
      | .ok (_, s₄) =>
      match Parser.nodes fuel s₄ with
      | none => none
      | some (.error e) => some (.error e)
      | some (.ok (children, s₅)) =>
      match Parser.eat .CloseTagStart s₅ with
      | .error e => some (.error e)
      | .ok (_, s₆) =>
      match Parser.eat_ident s₆ with
      | .error e => some (.error e)
      | .ok (close_tag_name, s₇) =>
      match Parser.eat .TagEnd s₇ with
      | .error e => some (.error e)
      | .ok (_, s₈) =>
      if tag_name ≠ close_tag_name then
        some (.error (.TagMismatch tag_name close_tag_name))
      else
        some (.ok (.elem tag_name attrs children, s₈))) := rfl

/-- Unfolding of `Parser.attributes` at positive fuel. -/
theorem attributes_succ (fuel : Nat) (attrs : AttrMap) (s : List Char) :
    Parser.attributes (fuel+1) attrs s =
      match Lexer.peek s with
      | (.error e, _) => some (.error (.LexerError e))
      | (.ok .TagEnd, s₁) => some (.ok (attrs, s₁))
      | (.ok _, s₁) =>
        match Parser.attrib s₁ with
        | .error e => some (.error e)
        | .ok (kv, s₂) =>
            Parser.attributes fuel (AttrMap.insert attrs kv.1 kv.2) s₂ := rfl

/-- Unfolding of `parse` through the result of `Parser.node`. -/
theorem parse_def (fuel : Nat) (s : List Char) :
    parse fuel s =
      match Parser.node fuel s with
      | none => none
      | some (.error e) => some (.error e)
      | some (.ok (n, _)) => some (.ok n) := rfl

/-! ### Basic lemmas about trimming and peeking -/

/-- Trimming does nothing when the head is not whitespace. -/
theorem trim_start_cons_not_ws (c : Char) (s : List Char)
    (h : is_whitespace c = false) : trim_start (c :: s) = c :: s := by
  simp [trim_start, List.dropWhile_cons, h]

/-- Trimming skips a whitespace head. -/
theorem trim_start_cons_ws (c : Char) (s : List Char)
    (h : is_whitespace c = true) : trim_start (c :: s) = trim_start s := by
  simp [trim_start, List.dropWhile_cons, h]

/-- Trimming leading whitespace is idempotent. -/
theorem trim_start_idem (s : List Char) :
    trim_start (trim_start s) = trim_start s := by
  induction s with
  | nil => rfl
  | cons c t ih =>
    cases h : is_whitespace c with
    | true => rw [trim_start_cons_ws c t h]; exact ih
    | false => rw [trim_start_cons_not_ws c t h, trim_start_cons_not_ws c t h]

/-- The state returned by `peek` is exactly the trimmed input. -/
theorem peek_snd (s : List Char) : (Lexer.peek s).2 = trim_start s := by
  unfold Lexer.peek
  generalize trim_start s = t
  dsimp only
  split <;> first | rfl | (split <;> rfl)

/-- Peeking a trimmed state does not move the cursor and yields the same
classification. -/
theorem peek_peek (s : List Char) :
    Lexer.peek ((Lexer.peek s).2) = Lexer.peek s := by
  rw [peek_snd]
  unfold Lexer.peek
  rw [trim_start_idem]


/-! ### C8: peek is idempotent -/

/-- C8: for every lexer state, peeking twice without a consume returns the
same result both times (so in particular the same token kind); the only
state change of a peek is the one-time trim of leading whitespace, and a
second peek leaves the cursor unchanged. -/
theorem C8_peek_idempotent (s : List Char) :
    Lexer.peek ((Lexer.peek s).2) = Lexer.peek s ∧
    (Lexer.peek s).2 = trim_start s ∧
    (Lexer.peek ((Lexer.peek s).2)).2 = (Lexer.peek s).2 := by
  refine ⟨peek_peek s, peek_snd s, ?_⟩
  rw [peek_peek s]

/-! ### C5: parsing a minimal well-formed document -/

/-- C5: parsing the input consisting of a single empty element with tag
name tag succeeds and yields an Element node with that tag name, an empty
attribute map and no children. -/
theorem C5_minimal_element :
    parse 10 (chars "<tag></tag>") =
      some (.ok (.elem (chars "tag") [] [])) := rfl

/-! ### C2: the error produced by the input consisting of an open tag
start and an identifier followed by end of input -/

/-- C2 counterexample: the claim says this input fails with
UnexpectedToken whose expected field is the tag-end kind; in fact the
parser fails inside the attribute loop, with expected being the
identifier kind, which is not of the tag-end kind. -/
theorem C2_counterexample :
    parse 10 (chars "<a") =
      some (.error (.UnexpectedToken (.Identifier []) .EOF [])) ∧
    Token.same_type (.Identifier []) .TagEnd = false := ⟨rfl, rfl⟩

/-- C2 amended: parsing the unterminated open tag fails with an
UnexpectedToken error whose expected field is the identifier kind (the
attribute loop demands another attribute name, since end of input is not
tag-end) and whose got field is the end-of-file kind. -/
theorem C2_unexpected_token_on_unterminated_tag :
    parse 10 (chars "<a") =
      some (.error (.UnexpectedToken (.Identifier []) .EOF [])) := rfl

/-! ### C9: parse returns after exactly one root node -/

/-- C9: whenever a prefix of the input parses as a complete node, `parse`
returns exactly that node, discarding the unexamined trailing input, so
trailing content after the root node (further elements, or even malformed
text) can neither cause an error nor appear in the returned tree. -/
theorem C9_single_root :
    (∀ (fuel : Nat) (s : List Char) (n : Node) (rest : List Char),
        Parser.node fuel s = some (.ok (n, rest)) →
        parse fuel s = some (.ok n)) ∧
    parse 10 (chars "<a></a><b") = some (.ok (.elem (chars "a") [] [])) ∧
    parse 10 (chars "<a></a>@@@<<<") = some (.ok (.elem (chars "a") [] [])) := by
  refine ⟨?_, rfl, rfl⟩
  intro fuel s n rest h
  rw [parse_def, h]

/-- Witness for C9 at a concrete input. -/
theorem C9_single_root_witness :
    parse 1 (chars "hi") = some (.ok (.text (chars "hi"))) :=
  C9_single_root.1 1 (chars "hi") (.text (chars "hi")) [] rfl

/-! ### C1: the parser does not terminate on an unclosed element -/

/-- The child-collection loop runs forever on an exhausted input: it never
breaks on end-of-file, and the text branch consumes nothing there. -/
theorem nodes_nil : ∀ fuel, Parser.nodes fuel [] = none := by
  intro fuel
  induction fuel with
  | zero => rfl
  | succ f ih =>
    cases f with
    | zero => rfl
    | succ f' =>
      show ((match Parser.nodes (f'+1) ([] : List Char) with
             | none => none
             | some (.error e) => some (.error e)
             | some (.ok (ns, s₃)) => some (.ok (Node.text [] :: ns, s₃)))
            : Option (Except ParseError (List Node × List Char))) = none
      rw [ih]

/-- An element whose children run to end of input never returns. -/
theorem element_unclosed : ∀ fuel, Parser.element fuel (chars "<a>") = none := by
  intro fuel
  match fuel with
  | 0 => rfl
  | 1 => rfl
  | (f+2) =>
    show ((match Parser.nodes (f+1) ([] : List Char) with
           | none => none
           | some (.error e) => some (.error e)
           | some (.ok (children, s₅)) =>
             match Parser.eat .CloseTagStart s₅ with
             | .error e => some (.error e)
             | .ok (_, s₆) =>
             match Parser.eat_ident s₆ with
             | .error e => some (.error e)
             | .ok (close_tag_name, s₇) =>
             match Parser.eat .TagEnd s₇ with
             | .error e => some (.error e)
             | .ok (_, s₈) =>
             if chars "a" ≠ close_tag_name then
               some (.error (.TagMismatch (chars "a") close_tag_name))
             else some (.ok (.elem (chars "a") [] children, s₈)))
          : Option (Except ParseError (Node × List Char))) = none
    rw [nodes_nil]

/-- C1 is violated by the code: on the input of a single unclosed open
tag, the embedded parser exhausts every fuel bound, i.e. the recursion of
the source program never returns: `Parser::nodes` loops forever once the
input is exhausted before a close-tag-start appears. -/
theorem C1_nontermination_on_unclosed_tag :
    ∀ fuel, parse fuel (chars "<a>") = none := by
  intro fuel
  match fuel with
  | 0 => rfl
  | (f+1) =>
    rw [parse_def]
    show ((match Parser.element f (chars "<a>") with
           | none => none
           | some (.error e) => some (.error e)
           | some (.ok (n, _)) => some (.ok n))
          : Option (Except ParseError Node)) = none
    rw [element_unclosed]

/-! ### C10: trivially empty inputs parse to an empty text node -/

/-- C10: an empty input, a whitespace-only input, and any input whose
first non-whitespace characters begin a close tag all parse successfully
to a Text node holding the empty string. -/
theorem C10_degenerate_inputs (fuel : Nat) (s : List Char)
    (h : trim_start s = [] ∨ ∃ r, trim_start s = '<' :: '/' :: r) :
    parse (fuel+1) s = some (.ok (.text [])) := by
  rw [parse_def, node_succ]
  rcases h with h | ⟨r, h⟩
  · have hp : Lexer.peek s = (.ok .EOF, []) := by
      unfold Lexer.peek
      rw [h]
    rw [hp]
    rfl
  · have hp : Lexer.peek s = (.ok .CloseTagStart, '<' :: '/' :: r) := by
      unfold Lexer.peek
      rw [h]
      rfl
    rw [hp]
    rfl

/-- Witness for C10 at a concrete close-tag-first input. -/
theorem C10_degenerate_inputs_witness :
    parse 1 (chars "</a>") = some (.ok (.text [])) :=
  C10_degenerate_inputs 0 (chars "</a>") (Or.inr ⟨chars "a>", rfl⟩)

/-! ### C4: node dispatch absorbs everything that is not an open tag -/

/-- C4: whenever the peeked token is not open-tag-start — including the
case where the lexer reports an UnknownLexeme error — the node dispatch
takes the text branch, producing a Text node from the raw span up to the
next open angle bracket (or end of input); no error, in particular no
lexer error, can escape from this branch. -/
theorem C4_node_dispatch_absorbs_nontags (fuel : Nat) (s : List Char)
    (h : (Lexer.peek s).1 ≠ .ok .OpenTagStart) :
    Parser.node (fuel+1) s =
      some (.ok (.text (Lexer.text_till '<' (trim_start s)).1,
                 (Lexer.text_till '<' (trim_start s)).2)) ∧
    ∀ e, Parser.node (fuel+1) s ≠ some (.error e) := by
  have hmain : Parser.node (fuel+1) s =
      some (.ok (.text (Lexer.text_till '<' (trim_start s)).1,
                 (Lexer.text_till '<' (trim_start s)).2)) := by
    rw [node_succ]
    rcases hp : Lexer.peek s with ⟨rr, s₁⟩
    have hs₁ : s₁ = trim_start s := by
      have h2 := peek_snd s
      rw [hp] at h2
      exact h2
    subst hs₁
    match rr with
    | .error e => rfl
    | .ok .OpenTagStart =>
        exfalso
        apply h
        rw [hp]
    | .ok .CloseTagStart => rfl
    | .ok .TagEnd => rfl
    | .ok .Quote => rfl
    | .ok .Equals => rfl
    | .ok (.Identifier id) => rfl
    | .ok .EOF => rfl
  refine ⟨hmain, ?_⟩
  intro e heq
  rw [hmain] at heq
  simp at heq

/-- Witness for C4 at an input whose first character is unclassifiable by
the lexer. -/
theorem C4_node_dispatch_absorbs_nontags_witness :
    Parser.node 1 (chars "@x") = some (.ok (.text (chars "@x"), [])) :=
  (C4_node_dispatch_absorbs_nontags 0 (chars "@x") (fun h => nomatch h)).1

/-! ### C6: the behaviour of text_till -/

/-- Scanning to the first occurrence of a character and cutting there is
the same as taking while the character has not appeared. -/
theorem take_findIdx_beq (c : Char) (l : List Char) :
    l.take (l.findIdx (fun x => x == c)) = l.takeWhile (fun x => !(x == c)) := by
  induction l with
  | nil => rfl
  | cons a t ih =>
    by_cases h : a = c
    · subst h
      simp [List.findIdx_cons]
    · have hb : (a == c) = false := beq_eq_false_iff_ne.mpr h
      simp [List.findIdx_cons, hb, List.takeWhile_cons, ih]

/-- Dropping up to the first occurrence of a character is the same as
dropping while the character has not appeared. -/
theorem drop_findIdx_beq (c : Char) (l : List Char) :
    l.drop (l.findIdx (fun x => x == c)) = l.dropWhile (fun x => !(x == c)) := by
  induction l with
  | nil => rfl
  | cons a t ih =>
    by_cases h : a = c
    · subst h
      simp [List.findIdx_cons]
    · have hb : (a == c) = false := beq_eq_false_iff_ne.mpr h
      simp [List.findIdx_cons, hb, List.dropWhile_cons, ih]

/-- What remains after dropping while a character has not appeared either
is empty or starts with that character. -/
theorem dropWhile_ne_head (c : Char) (l : List Char) :
    l.dropWhile (fun x => !(x == c)) = [] ∨
    ∃ r, l.dropWhile (fun x => !(x == c)) = c :: r := by
  induction l with
  | nil => exact Or.inl rfl
  | cons a t ih =>
    by_cases h : a = c
    · subst h
      right
      exact ⟨t, by simp [List.dropWhile_cons]⟩
    · have hb : (a == c) = false := beq_eq_false_iff_ne.mpr h
      simpa [List.dropWhile_cons, hb] using ih

/-- C6: for every lexer state and delimiter, text_till first trims leading
whitespace, returns the span from the trimmed cursor up to the first
occurrence of the delimiter (or to end of input when absent) with
trailing whitespace trimmed, and advances the cursor exactly past that
span, so that the remaining state either is empty or still starts with
the unconsumed delimiter. -/
theorem C6_text_till_spec (s : List Char) (c : Char) :
    (Lexer.text_till c s).1 =
      trim_end ((trim_start s).takeWhile (fun x => !(x == c))) ∧
    (Lexer.text_till c s).2 = (trim_start s).dropWhile (fun x => !(x == c)) ∧
    ((Lexer.text_till c s).2 = [] ∨
     ∃ r, (Lexer.text_till c s).2 = c :: r) := by
  refine ⟨?_, ?_, ?_⟩
  · show trim_end ((trim_start s).take ((trim_start s).findIdx (fun x => x == c))) =
      trim_end ((trim_start s).takeWhile (fun x => !(x == c)))
    rw [take_findIdx_beq]
  · show (trim_start s).drop ((trim_start s).findIdx (fun x => x == c)) =
      (trim_start s).dropWhile (fun x => !(x == c))
    rw [drop_findIdx_beq]
  · show (trim_start s).drop ((trim_start s).findIdx (fun x => x == c)) = [] ∨
      ∃ r, (trim_start s).drop ((trim_start s).findIdx (fun x => x == c)) = c :: r
    rw [drop_findIdx_beq]
    exact dropWhile_ne_head c (trim_start s)

/-! ### C3: tag-mismatch errors -/

/-- The token puller never produces a TagMismatch error. -/
theorem next_token_no_mismatch (s o c : List Char) :
    Parser.next_token s ≠ .error (.TagMismatch o c) := by
  unfold Parser.next_token
  rcases Lexer.next s with ⟨r, s₁⟩
  cases r <;> simp

/-- Eating an expected token never produces a TagMismatch error. -/
theorem eat_no_mismatch (expected : Token) (s o c : List Char) :
    Parser.eat expected s ≠ .error (.TagMismatch o c) := by
  unfold Parser.eat
  intro h
  split at h
  · rename_i e heq
    injection h with h1
    subst h1
    exact next_token_no_mismatch s o c heq
  · split at h
    · exact Except.noConfusion h
    · injection h with h1
      exact ParseError.noConfusion h1

/-- Eating an identifier never produces a TagMismatch error. -/
theorem eat_ident_no_mismatch (s o c : List Char) :
    Parser.eat_ident s ≠ .error (.TagMismatch o c) := by
  unfold Parser.eat_ident
  intro h
  split at h
  · rename_i e heq
    injection h with h1
    subst h1
    exact next_token_no_mismatch s o c heq
  · exact Except.noConfusion h
  · injection h with h1
    exact ParseError.noConfusion h1

/-- A single attribute parse never produces a TagMismatch error. -/
theorem attrib_no_mismatch (s o c : List Char) :
    Parser.attrib s ≠ .error (.TagMismatch o c) := by
  unfold Parser.attrib
  intro h
  split at h
  · rename_i e heq
    injection h with h1
    subst h1
    exact eat_ident_no_mismatch _ o c heq
  · split at h
    · injection h with h1
      exact ParseError.noConfusion h1
    · split at h
      · rename_i e heq
        injection h with h1
        subst h1
        exact eat_no_mismatch _ _ o c heq
      · split at h
        · rename_i e heq
          injection h with h1
          subst h1
          exact eat_no_mismatch _ _ o c heq
        · dsimp only at h
          split at h
          · rename_i e heq
            injection h with h1
            subst h1
            exact eat_no_mismatch _ _ o c heq
          · exact Except.noConfusion h
    · exact Except.noConfusion h

/-- The attribute loop never produces a TagMismatch error. -/
theorem attributes_no_mismatch (fuel : Nat) (acc : AttrMap) (s o c : List Char) :
    Parser.attributes fuel acc s ≠ some (.error (.TagMismatch o c)) := by
  induction fuel generalizing acc s with
  | zero => exact fun h => Option.noConfusion h
  | succ f ih =>
    intro h
    rw [attributes_succ] at h
    split at h
    · injection h with h1
      injection h1 with h2
      exact ParseError.noConfusion h2
    · injection h with h1
      exact Except.noConfusion h1
    · split at h
      · rename_i e heq
        injection h with h1
        injection h1 with h2
        subst h2
        exact attrib_no_mismatch _ o c heq
      · exact ih _ _ h

/-- Inversion for TagMismatch errors: whatever parser entry reports a
TagMismatch, some activation of the element rule ran to its final
tag-name check — consuming the full closing-tag syntax — and found the
opened and closed names distinct. -/
theorem mismatch_inversion (fuel : Nat) :
    (∀ s o c, Parser.element fuel s = some (.error (.TagMismatch o c)) →
      o ≠ c ∧ ∃ f₂ s₀, f₂ < fuel ∧ ElementFrame f₂ s₀ o c) ∧
    (∀ s o c, Parser.node fuel s = some (.error (.TagMismatch o c)) →
      o ≠ c ∧ ∃ f₂ s₀, f₂ < fuel ∧ ElementFrame f₂ s₀ o c) ∧
    (∀ s o c, Parser.nodes fuel s = some (.error (.TagMismatch o c)) →
      o ≠ c ∧ ∃ f₂ s₀, f₂ < fuel ∧ ElementFrame f₂ s₀ o c) := by
  induction fuel using Nat.strong_induction_on with
  | _ fuel ih =>
  match fuel with
  | 0 =>
    refine ⟨?_, ?_, ?_⟩ <;> exact fun s o c h => Option.noConfusion h
  | f+1 =>
    have ihe := fun m (hm : m < f + 1) => (ih m hm).1
    have ihn := fun m (hm : m < f + 1) => (ih m hm).2.1
    have ihns := fun m (hm : m < f + 1) => (ih m hm).2.2
    refine ⟨?_, ?_, ?_⟩
    · -- element
      intro s o c h
      rw [element_succ] at h
      split at h
      · rename_i e heq
        injection h with h1
        injection h1 with h2
        subst h2
        exact absurd heq (eat_no_mismatch _ _ o c)
      · split at h
        · rename_i e heq
          injection h with h1
          injection h1 with h2
          subst h2
          exact absurd heq (eat_ident_no_mismatch _ o c)
        · split at h
          · exact Option.noConfusion h
          · rename_i e heq
            injection h with h1
            injection h1 with h2
            subst h2
            exact absurd heq (attributes_no_mismatch _ _ _ o c)
          · split at h
            · rename_i e heq
              injection h with h1
              injection h1 with h2
              subst h2
              exact absurd heq (eat_no_mismatch _ _ o c)
            · split at h
              · exact Option.noConfusion h
              · rename_i e heq
                injection h with h1
                injection h1 with h2
                subst h2
                obtain ⟨hne, f₂, s₀, hlt, hframe⟩ := ihns f (Nat.lt_succ_self f) _ o c heq
                exact ⟨hne, f₂, s₀, Nat.lt_trans hlt (Nat.lt_succ_self f), hframe⟩
              · split at h
                · rename_i e heq
                  injection h with h1
                  injection h1 with h2
                  subst h2
                  exact absurd heq (eat_no_mismatch _ _ o c)
                · split at h
                  · rename_i e heq
                    injection h with h1
                    injection h1 with h2
                    subst h2
                    exact absurd heq (eat_ident_no_mismatch _ o c)
                  · split at h
                    · rename_i e heq
                      injection h with h1
                      injection h1 with h2
                      subst h2
                      exact absurd heq (eat_no_mismatch _ _ o c)
                    · split at h
                      · rename_i hne
                        injection h with h1
                        injection h1 with h2
                        injection h2 with h3 h4
                        subst h3
                        subst h4
                        exact ⟨hne, f, s, Nat.lt_succ_self f,
                          _, _, _, _, _, _, _, _, _, _, _, _, _, _,
                          by assumption, by assumption, by assumption,
                          by assumption, by assumption, by assumption,
                          by assumption, by assumption⟩
                      · injection h with h1
                        exact Except.noConfusion h1
    · -- node
      intro s o c h
      rw [node_succ] at h
      split at h
      · obtain ⟨hne, f₂, s₀, hlt, hframe⟩ := ihe f (Nat.lt_succ_self f) _ o c h
        exact ⟨hne, f₂, s₀, Nat.lt_trans hlt (Nat.lt_succ_self f), hframe⟩
      · dsimp only at h
        injection h with h1
        exact Except.noConfusion h1
    · -- nodes
      intro s o c h
      rw [nodes_succ] at h
      split at h
      · injection h with h1
        exact Except.noConfusion h1
      · split at h
        · exact Option.noConfusion h
        · rename_i e heq
          injection h with h1
          injection h1 with h2
          subst h2
          obtain ⟨hne, f₂, s₀, hlt, hframe⟩ := ihn f (Nat.lt_succ_self f) _ o c heq
          exact ⟨hne, f₂, s₀, Nat.lt_trans hlt (Nat.lt_succ_self f), hframe⟩
        · split at h
          · exact Option.noConfusion h
          · rename_i e heq
            injection h with h1
            injection h1 with h2
            subst h2
            obtain ⟨hne, f₂, s₀, hlt, hframe⟩ := ihns f (Nat.lt_succ_self f) _ o c heq
            exact ⟨hne, f₂, s₀, Nat.lt_trans hlt (Nat.lt_succ_self f), hframe⟩
          · injection h with h1
            exact Except.noConfusion h1

/-- C3: when the opening and closing tag names of an element differ as
exact substrings, parsing fails with a TagMismatch error carrying the
opening and the closing name; the error is raised only after the full
closing-tag syntax (close-tag-start, identifier, tag-end) has been
consumed — every TagMismatch comes from an element activation whose
frame consumed all of those tokens — and conversely any element
activation whose frame completes with distinct names fails exactly so.
In particular the document consisting of an a-element closed by a
b-element fails with TagMismatch reporting opened a and closed b. -/
theorem C3_tag_mismatch :
    parse 10 (chars "<a></b>") =
      some (.error (.TagMismatch (chars "a") (chars "b"))) ∧
    (∀ fuel s o c,
        Parser.element fuel s = some (.error (.TagMismatch o c)) →
        o ≠ c ∧ ∃ f₂ s₀, f₂ < fuel ∧ ElementFrame f₂ s₀ o c) ∧
    (∀ fuel s o c, ElementFrame fuel s o c → o ≠ c →
        Parser.element (fuel+1) s = some (.error (.TagMismatch o c))) := by
  refine ⟨rfl, fun fuel s o c h => (mismatch_inversion fuel).1 s o c h, ?_⟩
  intro fuel s o c hf hne
  obtain ⟨t₀, s₁, s₂, attrs, s₃, t₁, s₄, cs, s₅, t₂, s₆, s₇, t₃, s₈,
    h₁, h₂, h₃, h₄, h₅, h₆, h₇, h₈⟩ := hf
  rw [element_succ]
  simp only [h₁, h₂, h₃, h₄, h₅, h₆, h₇, h₈]
  rw [if_pos hne]

/-- Witness for C3: both general parts instantiated on the concrete
mismatched document. -/
theorem C3_tag_mismatch_witness :
    ((chars "a" ≠ chars "b") ∧
      ∃ f₂ s₀, f₂ < 9 ∧ ElementFrame f₂ s₀ (chars "a") (chars "b")) ∧
    Parser.element 9 (chars "<a></b>") =
      some (.error (.TagMismatch (chars "a") (chars "b"))) := by
  constructor
  · exact C3_tag_mismatch.2.1 9 (chars "<a></b>") (chars "a") (chars "b") rfl
  · exact C3_tag_mismatch.2.2 8 (chars "<a></b>") (chars "a") (chars "b")
      ⟨.OpenTagStart, chars "a></b>", chars "></b>", [], chars "></b>",
       .TagEnd, chars "</b>", [], chars "</b>", .CloseTagStart, chars "b>",
       chars ">", .TagEnd, [],
       rfl, rfl, rfl, rfl, rfl, rfl, rfl, rfl⟩
      (by decide)

/-! ### Supporting lemmas for the rendering development -/

/-- Trimming only shortens. -/
theorem length_trim_start_le (l : List Char) :
    (trim_start l).length ≤ l.length := by
  induction l with
  | nil => exact Nat.le_refl 0
  | cons a t ih =>
    cases h : is_whitespace a with
    | true =>
        rw [trim_start_cons_ws a t h]
        exact Nat.le_trans ih (Nat.le_succ _)
    | false =>
        rw [trim_start_cons_not_ws a t h]

/-- A nonempty trimmed list starts with a non-whitespace character. -/
theorem head_not_ws_of_trim_fix (c : Char) (t : List Char)
    (h : trim_start (c :: t) = c :: t) : is_whitespace c = false := by
  by_contra hc
  rw [Bool.not_eq_false] at hc
  rw [trim_start_cons_ws c t hc] at h
  have := length_trim_start_le t
  rw [h] at this
  simp at this

/-- Dropping leading whitespace skips over an all-whitespace prefix. -/
theorem trim_start_ws_append (w l : List Char) (hw : AllWs w) :
    trim_start (w ++ l) = trim_start l := by
  unfold trim_start
  exact List.dropWhile_append_of_pos hw

/-- Trimming trailing whitespace removes an all-whitespace suffix. -/
theorem trim_end_append_ws (t w : List Char) (hw : AllWs w) :
    trim_end (t ++ w) = trim_end t := by
  unfold trim_end
  rw [List.reverse_append]
  rw [List.dropWhile_append_of_pos (fun c hc => hw c (List.mem_reverse.mp hc))]

/-- Alphanumeric characters are not whitespace. -/
theorem alnum_not_ws (c : Char) (h : is_alphanumeric c = true) :
    is_whitespace c = false := by
  simp only [is_alphanumeric, is_alphabetic, Bool.or_eq_true, Bool.and_eq_true,
    decide_eq_true_eq] at h
  simp only [is_whitespace, Bool.or_eq_false_iff, Bool.and_eq_false_iff,
    decide_eq_false_iff_not, beq_eq_false_iff_ne, ne_eq]
  omega

/-- The first index where a never-satisfied predicate holds, over an
append, skips the whole first part. -/
theorem findIdx_append_not (p : Char → Bool) (t u : List Char)
    (h : ∀ c ∈ t, p c = false) :
    (t ++ u).findIdx p = t.length + u.findIdx p := by
  induction t with
  | nil => simp
  | cons a r ih =>
    rcases List.forall_mem_cons.mp h with ⟨ha, hr⟩
    simp [List.findIdx_cons, ha, ih hr]
    omega

/-- Characters of an all-whitespace run never equal a non-whitespace
delimiter. -/
theorem ws_not_delim (d : Char) (hd : is_whitespace d = false)
    (w : List Char) (hw : AllWs w) : ∀ c ∈ w, (c == d) = false := by
  intro c hc
  have := hw c hc
  cases hbe : c == d with
  | false => rfl
  | true =>
      rw [beq_iff_eq] at hbe
      subst hbe
      rw [this] at hd
      exact Bool.noConfusion hd

/-- Behaviour of text_till on a rendered span: a trimmed delimiter-free
span, an all-whitespace run, and then either end of input or the
delimiter itself.  The span is returned and the cursor stops exactly at
the tail. -/
theorem text_till_render (d : Char) (t w tail : List Char)
    (hdws : is_whitespace d = false)
    (hd : ∀ c ∈ t, (c == d) = false)
    (hts : trim_start t = t) (hte : trim_end t = t)
    (hw : AllWs w)
    (htail : tail = [] ∨ ∃ r, tail = d :: r) :
    Lexer.text_till d ((t ++ w) ++ tail) = (t, tail) := by
  unfold Lexer.text_till
  dsimp only
  cases t with
  | nil =>
      have h1 : trim_start (([] ++ w) ++ tail) = tail := by
        simp only [List.nil_append]
        rw [trim_start_ws_append w tail hw]
        rcases htail with h | ⟨r, h⟩
        · subst h
          rfl
        · subst h
          exact trim_start_cons_not_ws d r hdws
      rw [h1]
      have h2 : tail.findIdx (fun x => x == d) = 0 := by
        rcases htail with h | ⟨r, h⟩
        · subst h
          rfl
        · subst h
          simp [List.findIdx_cons]
      rw [h2]
      simp [trim_end]
  | cons c t' =>
      have hc : is_whitespace c = false := head_not_ws_of_trim_fix c t' hts
      have htrim : trim_start (((c :: t') ++ w) ++ tail) = ((c :: t') ++ w) ++ tail := by
        simp only [List.cons_append]
        exact trim_start_cons_not_ws c _ hc
      rw [htrim]
      have hfi : (((c :: t') ++ w) ++ tail).findIdx (fun x => x == d) =
          (c :: t').length + w.length := by
        rw [List.append_assoc]
        rw [findIdx_append_not _ (c :: t') (w ++ tail) hd]
        rw [findIdx_append_not _ w tail (ws_not_delim d hdws w hw)]
        rcases htail with h | ⟨r, h⟩
        · subst h
          rfl
        · subst h
          simp [List.findIdx_cons]
      rw [hfi]
      have hlen : ((c :: t') ++ w).length = (c :: t').length + w.length :=
        List.length_append _ _
      rw [List.take_left' hlen, List.drop_left' hlen]
      rw [trim_end_append_ws _ w hw, hte]

/-- Taking an identifier from a rendered name: the whole alphanumeric
name is cut off, stopping at the first non-alphanumeric character. -/
theorem take_identifier_render (n rest : List Char)
    (hall : ∀ c ∈ n, is_alphanumeric c = true)
    (hrest : rest = [] ∨ ∃ c r, rest = c :: r ∧ is_alphanumeric c = false) :
    Lexer.take_identifier (n ++ rest) = (n, rest) := by
  unfold Lexer.take_identifier
  dsimp only
  have hfi : (n ++ rest).findIdx (fun c => !(is_alphanumeric c)) = n.length := by
    rw [findIdx_append_not _ n rest (fun c hc => by rw [hall c hc]; rfl)]
    rcases hrest with h | ⟨c, r, h, hc⟩
    · subst h
      rfl
    · subst h
      simp [List.findIdx_cons, hc]
  rw [hfi, List.take_left' rfl, List.drop_left' rfl]

/-- Peek classifies the same way on any two states with the same trimmed
remainder. -/
theorem peek_congr (s s' : List Char) (h : trim_start s = trim_start s') :
    Lexer.peek s = Lexer.peek s' := by
  unfold Lexer.peek
  rw [h]

/-- Peek on a state whose head is a letter: an identifier token, with no
state change. -/
theorem peek_alpha (c : Char) (r : List Char) (h : is_alphabetic c = true) :
    Lexer.peek (c :: r) = (.ok (.Identifier []), c :: r) := by
  have hal : is_alphanumeric c = true := by
    unfold is_alphanumeric
    rw [h]
    rfl
  have hws : is_whitespace c = false := alnum_not_ws c hal
  have hlt : c ≠ '<' := fun he => by subst he; exact absurd h (by decide)
  have hgt : c ≠ '>' := fun he => by subst he; exact absurd h (by decide)
  have hq : c ≠ '"' := fun he => by subst he; exact absurd h (by decide)
  have heq : c ≠ '=' := fun he => by subst he; exact absurd h (by decide)
  unfold Lexer.peek
  rw [trim_start_cons_not_ws c r hws]
  dsimp only
  split
  · rename_i hx
    exact absurd hx (by simp)
  · rename_i hx
    injection hx with h1
    exact absurd h1 hlt
  · rename_i hx
    injection hx with h1
    exact absurd h1 hlt
  · rename_i hx
    injection hx with h1
    exact absurd h1 hgt
  · rename_i hx
    injection hx with h1
    exact absurd h1 hq
  · rename_i hx
    injection hx with h1
    exact absurd h1 heq
  · rename_i c₂ tail hx
    injection hx with h1 h2
    subst h1
    rw [if_pos h]

/-- Peek on a state starting with an open angle bracket followed by a
non-slash character. -/
theorem peek_open (c : Char) (r : List Char) (h : c ≠ '/') :
    Lexer.peek ('<' :: c :: r) = (.ok .OpenTagStart, '<' :: c :: r) := by
  unfold Lexer.peek
  rw [trim_start_cons_not_ws '<' (c :: r) (by decide)]
  dsimp only
  split
  · rename_i hx
    exact absurd hx (by simp)
  · rename_i hx
    injection hx with h1 h2
    injection h2 with h3
    exact absurd h3 h
  · rfl
  · rename_i hx
    injection hx with h1
    exact absurd h1 (by decide)
  · rename_i hx
    injection hx with h1
    exact absurd h1 (by decide)
  · rename_i hx
    injection hx with h1
    exact absurd h1 (by decide)
  · rename_i hlt hgt hq he heq
    injection heq with h1 h2
    exact absurd h1.symm hlt

/-- Eating a tag-end at a closing angle bracket. -/
theorem eat_tag_end (r : List Char) :
    Parser.eat .TagEnd ('>' :: r) = .ok (.TagEnd, r) := rfl

/-- Eating a quote at a double quote. -/
theorem eat_quote (r : List Char) :
    Parser.eat .Quote ('"' :: r) = .ok (.Quote, r) := rfl

/-- Eating an equals sign. -/
theorem eat_equals (r : List Char) :
    Parser.eat .Equals ('=' :: r) = .ok (.Equals, r) := rfl

/-- Eating a close-tag-start at a close tag. -/
theorem eat_close (r : List Char) :
    Parser.eat .CloseTagStart ('<' :: '/' :: r) = .ok (.CloseTagStart, r) := rfl

/-- Eating an open-tag-start at an open tag whose tag name starts with a
letter. -/
theorem eat_open (c : Char) (r : List Char) (hc : is_alphabetic c = true) :
    Parser.eat .OpenTagStart ('<' :: c :: r) = .ok (.OpenTagStart, c :: r) := by
  have hslash : c ≠ '/' := fun he => by subst he; exact absurd hc (by decide)
  unfold Parser.eat Parser.next_token Lexer.next
  rw [peek_open c r hslash]
  rfl

/-- Eating an identifier at a rendered name followed by a
non-alphanumeric character. -/
theorem eat_ident_render (n rest : List Char)
    (hn : wfName n = true)
    (hrest : ∃ c r, rest = c :: r ∧ is_alphanumeric c = false) :
    Parser.eat_ident (n ++ rest) = .ok (n, rest) := by
  obtain ⟨hne, hall, hhead⟩ : ¬n.isEmpty = true ∧
      (∀ c ∈ n, is_alphanumeric c = true) ∧
      is_alphabetic (n.headD ' ') = true := by
    have h := hn
    unfold wfName at h
    simp only [Bool.and_eq_true, Bool.not_eq_true', List.all_eq_true] at h
    exact ⟨by simp [h.1.1], h.1.2, h.2⟩
  cases n with
  | nil => exact absurd rfl hne
  | cons c₀ n' =>
    have halpha : is_alphabetic c₀ = true := hhead
    unfold Parser.eat_ident Parser.next_token Lexer.next
    rw [show (c₀ :: n') ++ rest = c₀ :: (n' ++ rest) from rfl]
    rw [peek_alpha c₀ (n' ++ rest) halpha]
    dsimp only
    have htake : Lexer.take (.Identifier []) (c₀ :: (n' ++ rest)) =
        (.Identifier (c₀ :: n'), rest) := by
      unfold Lexer.take
      rw [show (c₀ :: (n' ++ rest)) = (c₀ :: n') ++ rest from rfl]
      rw [take_identifier_render (c₀ :: n') rest hall (Or.inr hrest)]
    rw [htake]

/-- A well-formed name starts with a letter. -/
theorem wfName_head (n : List Char) (h : wfName n = true) :
    ∃ c r, n = c :: r ∧ is_alphabetic c = true := by
  cases n with
  | nil => exact absurd h (by decide)
  | cons c r =>
    refine ⟨c, r, rfl, ?_⟩
    unfold wfName at h
    simp only [Bool.and_eq_true] at h
    exact h.2

/-- Components of attribute well-formedness. -/
theorem wfAttr_parts (k v : List Char) (h : wfAttr (k, v) = true) :
    wfName k = true ∧ (∀ c ∈ v, (c == '"') = false) ∧
    trim_start v = v ∧ trim_end v = v := by
  unfold wfAttr at h
  simp only [Bool.and_eq_true, List.all_eq_true, Bool.not_eq_true',
    beq_iff_eq] at h
  exact ⟨h.1.1.1, h.1.1.2, h.1.2, h.2⟩

/-- Parsing one rendered attribute. -/
theorem attrib_render (k v R : List Char)
    (hk : wfName k = true)
    (hv : ∀ c ∈ v, (c == '"') = false)
    (hvs : trim_start v = v) (hve : trim_end v = v) :
    Parser.attrib (k ++ '=' :: '"' :: (v ++ '"' :: R)) = .ok ((k, v), R) := by
  unfold Parser.attrib
  rw [eat_ident_render k ('=' :: '"' :: (v ++ '"' :: R)) hk
    ⟨'=', '"' :: (v ++ '"' :: R), rfl, by decide⟩]
  dsimp only
  rw [show Lexer.peek ('=' :: '"' :: (v ++ '"' :: R)) =
    (.ok .Equals, '=' :: '"' :: (v ++ '"' :: R)) from rfl]
  dsimp only
  rw [eat_equals]
  dsimp only
  rw [eat_quote]
  dsimp only
  have ht : Lexer.text_till '"' (v ++ '"' :: R) = (v, '"' :: R) := by
    have h0 := text_till_render '"' v [] ('"' :: R) (by decide) hv hvs hve
      (fun c hc => absurd hc (List.not_mem_nil c)) (Or.inr ⟨R, rfl⟩)
    simpa using h0
  rw [ht]
  dsimp only
  rw [eat_quote]

/-- Parsing the rendered attribute list of an open tag: all attributes
are read and inserted left to right, and the cursor stops at the tag-end
character. -/
theorem attributes_render (as : List (List Char × List Char)) :
    ∀ (fuel : Nat) (acc : AttrMap) (rest : List Char),
    as.all wfAttr = true → as.length < fuel →
    Parser.attributes fuel acc (renderAttrs as ++ '>' :: rest) =
      some (.ok (as.foldl (fun m kv => AttrMap.insert m kv.1 kv.2) acc,
                 '>' :: rest)) := by
  induction as with
  | nil =>
    intro fuel acc rest _ hf
    match fuel, hf with
    | f+1, _ => rfl
  | cons kv as' ih =>
    intro fuel acc rest hwf hf
    obtain ⟨k, v⟩ := kv
    have hwf2 : wfAttr (k, v) = true ∧ as'.all wfAttr = true := by
      simpa using hwf
    obtain ⟨hk, hv1, hvs, hve⟩ := wfAttr_parts k v hwf2.1
    match fuel, hf with
    | f+1, hf =>
    have hst : renderAttrs ((k, v) :: as') ++ '>' :: rest =
        ' ' :: (k ++ '=' :: '"' ::
          (v ++ '"' :: (renderAttrs as' ++ '>' :: rest))) := by
      simp [renderAttrs, List.append_assoc]
    rw [attributes_succ, hst]
    obtain ⟨c₀, k', hkdec, halpha⟩ := wfName_head k hk
    have hpk : Lexer.peek (' ' :: (k ++ '=' :: '"' ::
        (v ++ '"' :: (renderAttrs as' ++ '>' :: rest)))) =
        (.ok (.Identifier []), k ++ '=' :: '"' ::
          (v ++ '"' :: (renderAttrs as' ++ '>' :: rest))) := by
      rw [peek_congr _ _ (trim_start_cons_ws ' ' _ (by decide))]
      rw [hkdec]
      rw [show (c₀ :: k') ++ '=' :: '"' ::
        (v ++ '"' :: (renderAttrs as' ++ '>' :: rest)) =
        c₀ :: (k' ++ '=' :: '"' ::
          (v ++ '"' :: (renderAttrs as' ++ '>' :: rest))) from rfl]
      exact peek_alpha c₀ _ halpha
    rw [hpk]
    dsimp only
    rw [attrib_render k v (renderAttrs as' ++ '>' :: rest) hk hv1 hvs hve]
    dsimp only
    have hlen : as'.length < f := by
      have : as'.length + 1 < f + 1 := by simpa using hf
      omega
    rw [ih f (AttrMap.insert acc k v) rest hwf2.2 hlen]
    rfl

/-- Documents have positive size. -/
theorem sizeD_pos (d : Doc) : 1 ≤ sizeD d := by
  cases d with
  | textD t => exact Nat.le_refl 1
  | elemD n as cs => unfold sizeD; omega

/-- Sibling lists have positive size. -/
theorem sizeL_pos (cs : DocList) : 1 ≤ sizeL cs := by
  cases cs with
  | nilD => exact Nat.le_refl 1
  | consD d ds => unfold sizeL; omega

/-- Components of element well-formedness. -/
theorem wfD_elem_parts (n : List Char) (as : List (List Char × List Char))
    (cs : DocList) (h : wfD (.elemD n as cs) = true) :
    wfName n = true ∧ as.all wfAttr = true ∧ wfL cs = true := by
  unfold wfD at h
  simp only [Bool.and_eq_true] at h
  exact ⟨h.1.1, h.1.2, h.2⟩

/-- Components of text well-formedness. -/
theorem wfText_parts (t : List Char) (h : wfText t = true) :
    t ≠ [] ∧ trim_start t = t ∧ trim_end t = t ∧
    (∀ c ∈ t, (c == '<') = false) := by
  unfold wfText at h
  simp only [Bool.and_eq_true, Bool.not_eq_true', List.all_eq_true,
    beq_iff_eq] at h
  refine ⟨?_, h.1.1.2, h.1.2, ?_⟩
  · intro he
    subst he
    simp at h
  · intro c hc
    have := h.2 c hc
    simpa using this

/-- Components of sibling-list well-formedness. -/
theorem wfL_cons_parts (d : Doc) (ds : DocList)
    (h : wfL (.consD d ds) = true) :
    wfD d = true ∧ wfL ds = true ∧
    (isTextB d = true → headTextB ds = false) := by
  unfold wfL at h
  simp only [Bool.and_eq_true, Bool.not_eq_true'] at h
  refine ⟨h.1.1, h.1.2, ?_⟩
  intro ht
  have h2 := h.2
  rw [ht] at h2
  simpa using h2

/-- Peek on a trimmed state whose head is neither whitespace nor an open
angle bracket: the result is not a tag opener, and the cursor stays. -/
theorem peek_not_tag (c₀ : Char) (u : List Char)
    (hws : is_whitespace c₀ = false) (hlt : c₀ ≠ '<') :
    (Lexer.peek (c₀ :: u)).1 ≠ .ok .CloseTagStart ∧
    (Lexer.peek (c₀ :: u)).1 ≠ .ok .OpenTagStart ∧
    (Lexer.peek (c₀ :: u)).2 = c₀ :: u := by
  refine ⟨?_, ?_, peek_snd _ ▸ trim_start_cons_not_ws c₀ u hws⟩ <;>
  · unfold Lexer.peek
    rw [trim_start_cons_not_ws c₀ u hws]
    dsimp only
    split
    · rename_i hx
      simp at hx
    · rename_i hx
      injection hx with h1
      exact absurd h1 hlt
    · rename_i hx
      injection hx with h1
      exact absurd h1 hlt
    · simp
    · simp
    · simp
    · split <;> simp

/-- The node dispatch takes the element branch exactly on an open tag. -/
theorem node_open (fuel : Nat) (u s₁ : List Char)
    (h : Lexer.peek u = (.ok .OpenTagStart, s₁)) :
    Parser.node (fuel+1) u = Parser.element fuel s₁ := by
  rw [node_succ, h]

/-- The node dispatch takes the text branch on anything else. -/
theorem node_not_open (fuel : Nat) (u : List Char)
    (h : (Lexer.peek u).1 ≠ .ok .OpenTagStart) :
    Parser.node (fuel+1) u =
      some (.ok (.text (Lexer.text_till '<' (trim_start u)).1,
                 (Lexer.text_till '<' (trim_start u)).2)) := by
  rw [node_succ]
  rcases hp : Lexer.peek u with ⟨rr, s₁⟩
  have hs₁ : s₁ = trim_start u := by
    have h2 := peek_snd u
    rw [hp] at h2
    exact h2
  subst hs₁
  match rr with
  | .error e => rfl
  | .ok .OpenTagStart =>
      exfalso
      apply h
      rw [hp]
  | .ok .CloseTagStart => rfl
  | .ok .TagEnd => rfl
  | .ok .Quote => rfl
  | .ok .Equals => rfl
  | .ok (.Identifier id) => rfl
  | .ok .EOF => rfl

/-- The child loop, when the peeked token is not close-tag-start, runs the
node rule on the trimmed state and then continues. -/
theorem nodes_step_not_close (fuel : Nat) (u : List Char)
    (h : (Lexer.peek u).1 ≠ .ok .CloseTagStart) :
    Parser.nodes (fuel+1) u =
      ((match Parser.node fuel ((Lexer.peek u).2) with
        | none => none
        | some (.error e) => some (.error e)
        | some (.ok (n, s₂)) =>
          match Parser.nodes fuel s₂ with
          | none => none
          | some (.error e) => some (.error e)
          | some (.ok (ns, s₃)) => some (.ok (n :: ns, s₃)))
       : Option (Except ParseError (List Node × List Char))) := by
  rw [nodes_succ]
  rcases hp : Lexer.peek u with ⟨rr, s₁⟩
  have hs₁ : s₁ = (Lexer.peek u).2 := by rw [hp]
  subst hs₁
  match rr with
  | .error e => rfl
  | .ok .OpenTagStart => rfl
  | .ok .CloseTagStart =>
      exfalso
      apply h
      rw [hp]
  | .ok .TagEnd => rfl
  | .ok .Quote => rfl
  | .ok .Equals => rfl
  | .ok (.Identifier id) => rfl
  | .ok .EOF => rfl

/-- Any rendering of a well-formed element parses to its canonical tree,
and any rendering of a well-formed sibling list parses to its canonical
child list, independently of the whitespace choices, with the cursor
stopping exactly at the following close tag. -/
theorem render_parse (fuel : Nat) :
    (∀ n as cs inner rest,
        wfName n = true → as.all wfAttr = true → wfL cs = true →
        RDL cs inner →
        sizeD (.elemD n as cs) ≤ fuel + 1 →
        Parser.element fuel
          ('<' :: (n ++ (renderAttrs as ++ '>' ::
            (inner ++ '<' :: '/' :: (n ++ '>' :: rest))))) =
          some (.ok (treeOf (.elemD n as cs), rest))) ∧
    (∀ cs inner rest r,
        wfL cs = true → RDL cs inner → sizeL cs ≤ fuel →
        rest = '<' :: '/' :: r →
        Parser.nodes fuel (inner ++ rest) = some (.ok (treesOf cs, rest))) := by
  induction fuel using Nat.strong_induction_on with
  | _ fuel ih =>
  constructor
  · -- the element rule on a rendered element
    intro n as cs inner rest hn has hcs hrdl hsize
    cases fuel with
    | zero =>
        exfalso
        unfold sizeD at hsize
        have := sizeL_pos cs
        omega
    | succ f =>
        have hszL := sizeL_pos cs
        have hfa : as.length < f := by
          unfold sizeD at hsize
          omega
        have hfL : sizeL cs ≤ f := by
          unfold sizeD at hsize
          omega
        obtain ⟨c₀, n', hndec, halpha⟩ := wfName_head n hn
        have h1 : Parser.eat .OpenTagStart
            ('<' :: (n ++ (renderAttrs as ++ '>' ::
              (inner ++ '<' :: '/' :: (n ++ '>' :: rest))))) =
            .ok (.OpenTagStart, n ++ (renderAttrs as ++ '>' ::
              (inner ++ '<' :: '/' :: (n ++ '>' :: rest)))) := by
          rw [hndec]
          exact eat_open c₀ _ halpha
        have hhead : ∃ c rr, renderAttrs as ++ '>' ::
            (inner ++ '<' :: '/' :: (n ++ '>' :: rest)) = c :: rr ∧
            is_alphanumeric c = false := by
          cases as with
          | nil => exact ⟨'>', inner ++ '<' :: '/' :: (n ++ '>' :: rest),
              rfl, by decide⟩
          | cons a as' => exact ⟨' ', _, rfl, by decide⟩
        have h2 : Parser.eat_ident (n ++ (renderAttrs as ++ '>' ::
            (inner ++ '<' :: '/' :: (n ++ '>' :: rest)))) =
            .ok (n, renderAttrs as ++ '>' ::
              (inner ++ '<' :: '/' :: (n ++ '>' :: rest))) :=
          eat_ident_render n _ hn hhead
        have h3 := attributes_render as f []
          (inner ++ '<' :: '/' :: (n ++ '>' :: rest)) has hfa
        have h5 := (ih f (Nat.lt_succ_self f)).2 cs inner
          ('<' :: '/' :: (n ++ '>' :: rest)) (n ++ '>' :: rest)
          hcs hrdl hfL rfl
        have h7 : Parser.eat_ident (n ++ '>' :: rest) = .ok (n, '>' :: rest) :=
          eat_ident_render n _ hn ⟨'>', rest, rfl, by decide⟩
        rw [element_succ]
        simp only [h1, h2, h3, eat_tag_end, h5, eat_close, h7]
        rw [if_neg (fun hne => hne rfl)]
        rfl
  · -- the child loop on a rendered sibling list
    intro cs inner rest r hw hrdl hsize hrest
    cases fuel with
    | zero =>
        exfalso
        have := sizeL_pos cs
        omega
    | succ f =>
    cases hrdl with
    | nilR =>
        rename_i hwW
        have hp : Lexer.peek (inner ++ rest) = (.ok .CloseTagStart, rest) := by
          rw [peek_congr (inner ++ rest) rest (trim_start_ws_append inner rest hwW)]
          rw [hrest]
          rfl
        rw [nodes_succ, hp]
        rfl
    | consR d ds w s rest₂ hwW hrd hrdl₂ =>
        obtain ⟨hwd, hwds, hadj⟩ := wfL_cons_parts d ds hw
        have hsz : sizeD d + sizeL ds + 1 ≤ f + 1 := by
          unfold sizeL at hsize
          omega
        have hdpos := sizeD_pos d
        have hLpos := sizeL_pos ds
        have hstate : (w ++ (s ++ rest₂)) ++ rest = w ++ (s ++ (rest₂ ++ rest)) := by
          simp [List.append_assoc]
        rw [hstate]
        cases hrd with
        | textR =>
            have hwt : wfText s = true := hwd
            obtain ⟨htne, hts, hte, htlt⟩ := wfText_parts s hwt
            obtain ⟨c₀, t', htdec⟩ : ∃ c₀ t', s = c₀ :: t' := by
              cases s with
              | nil => exact absurd rfl htne
              | cons a b => exact ⟨a, b, rfl⟩
            have hc₀ws : is_whitespace c₀ = false :=
              head_not_ws_of_trim_fix c₀ t' (htdec ▸ hts)
            have hc₀mem : c₀ ∈ s := htdec ▸ List.mem_cons_self c₀ t'
            have hc₀lt : c₀ ≠ '<' := by
              intro he
              have h0 := htlt c₀ hc₀mem
              rw [he] at h0
              simp at h0
            have hpcongr : Lexer.peek (w ++ (s ++ (rest₂ ++ rest))) =
                Lexer.peek (s ++ (rest₂ ++ rest)) :=
              peek_congr _ _ (trim_start_ws_append _ _ hwW)
            have htdec2 : s ++ (rest₂ ++ rest) = c₀ :: (t' ++ (rest₂ ++ rest)) := by
              rw [htdec]
              rfl
            have hptag := peek_not_tag c₀ (t' ++ (rest₂ ++ rest)) hc₀ws hc₀lt
            have hnotclose : (Lexer.peek (w ++ (s ++ (rest₂ ++ rest)))).1 ≠
                .ok .CloseTagStart := by
              rw [hpcongr, htdec2]
              exact hptag.1
            rw [nodes_step_not_close f _ hnotclose]
            have hpt2 : (Lexer.peek (w ++ (s ++ (rest₂ ++ rest)))).2 =
                s ++ (rest₂ ++ rest) := by
              rw [hpcongr, htdec2]
              exact hptag.2.2
            rw [hpt2]
            have hf1 : 1 ≤ f := by
              unfold sizeD at hsz
              omega
            cases f with
            | zero => omega
            | succ f' =>
            have hnotopen : (Lexer.peek (s ++ (rest₂ ++ rest))).1 ≠
                .ok .OpenTagStart := by
              rw [htdec2]
              exact hptag.2.1
            rw [node_not_open f' _ hnotopen]
            have htrim : trim_start (s ++ (rest₂ ++ rest)) = s ++ (rest₂ ++ rest) := by
              rw [htdec2]
              exact trim_start_cons_not_ws c₀ _ hc₀ws
            rw [htrim]
            cases hrdl₂ with
            | nilR =>
                rename_i hw₂
                have ht1 : Lexer.text_till '<' (s ++ (rest₂ ++ rest)) = (s, rest) := by
                  have h0 := text_till_render '<' s rest₂ rest (by decide)
                    htlt hts hte hw₂ (Or.inr ⟨'/' :: r, hrest⟩)
                  rw [List.append_assoc] at h0
                  exact h0
                rw [ht1]
                dsimp only
                have hns : Parser.nodes (f'+1) rest = some (.ok ([], rest)) := by
                  rw [nodes_succ]
                  rw [show Lexer.peek rest = (.ok .CloseTagStart, rest) from by
                    rw [hrest]
                    rfl]
                rw [hns]
                rfl
            | consR d₂ ds₂ w₂ s₂ rest₃ hw₂ hrd₂ hrdl₃ =>
                cases hrd₂ with
                | textR =>
                    exfalso
                    have h0 := hadj rfl
                    simp [headTextB, isTextB] at h0
                | elemR n₂ as₂ cs₂ inner₂ hrdl₄ =>
                    have ht1 : Lexer.text_till '<'
                        (s ++ ((w₂ ++ (('<' :: (n₂ ++ (renderAttrs as₂ ++ '>' ::
                          (inner₂ ++ '<' :: '/' :: (n₂ ++ ['>']))))) ++ rest₃)) ++ rest)) =
                        (s, ('<' :: (n₂ ++ (renderAttrs as₂ ++ '>' ::
                          (inner₂ ++ '<' :: '/' :: (n₂ ++ ['>']))))) ++ (rest₃ ++ rest)) := by
                      have h0 := text_till_render '<' s w₂
                        (('<' :: (n₂ ++ (renderAttrs as₂ ++ '>' ::
                          (inner₂ ++ '<' :: '/' :: (n₂ ++ ['>']))))) ++ (rest₃ ++ rest))
                        (by decide) htlt hts hte hw₂ (Or.inr ⟨_, rfl⟩)
                      rw [show (s ++ w₂) ++ (('<' :: (n₂ ++ (renderAttrs as₂ ++ '>' ::
                          (inner₂ ++ '<' :: '/' :: (n₂ ++ ['>']))))) ++ (rest₃ ++ rest)) =
                        s ++ ((w₂ ++ (('<' :: (n₂ ++ (renderAttrs as₂ ++ '>' ::
                          (inner₂ ++ '<' :: '/' :: (n₂ ++ ['>']))))) ++ rest₃)) ++ rest)
                        from by simp [List.append_assoc]] at h0
                      exact h0
                    rw [ht1]
                    dsimp only
                    have hrdl₅ : RDL (.consD (.elemD n₂ as₂ cs₂) ds₂)
                        ([] ++ (('<' :: (n₂ ++ (renderAttrs as₂ ++ '>' ::
                          (inner₂ ++ '<' :: '/' :: (n₂ ++ ['>']))))) ++ rest₃)) :=
                      RDL.consR (.elemD n₂ as₂ cs₂) ds₂ [] _ rest₃
                        (fun c hc => absurd hc (List.not_mem_nil c))
                        (RD.elemR n₂ as₂ cs₂ inner₂ hrdl₄) hrdl₃
                    have hns := (ih (f'+1) (Nat.lt_succ_self (f'+1))).2
                      (.consD (.elemD n₂ as₂ cs₂) ds₂) _ rest r hwds hrdl₅ (by omega) hrest
                    rw [show ((([] : List Char) ++ (('<' :: (n₂ ++ (renderAttrs as₂ ++ '>' ::
                        (inner₂ ++ '<' :: '/' :: (n₂ ++ ['>']))))) ++ rest₃)) ++ rest) =
                      ('<' :: (n₂ ++ (renderAttrs as₂ ++ '>' ::
                        (inner₂ ++ '<' :: '/' :: (n₂ ++ ['>']))))) ++ (rest₃ ++ rest)
                      from by simp [List.append_assoc]] at hns
                    rw [hns]
                    rfl
        | elemR n₂ as₂ cs₂ inner₂ hrdl₄ =>
            obtain ⟨hn₂, has₂, hcs₂⟩ := wfD_elem_parts n₂ as₂ cs₂ hwd
            obtain ⟨c₀, n₂', hndec, halpha⟩ := wfName_head n₂ hn₂
            have hslash : c₀ ≠ '/' := by
              intro he
              rw [he] at halpha
              exact absurd halpha (by decide)
            have hflat : ('<' :: (n₂ ++ (renderAttrs as₂ ++ '>' ::
                (inner₂ ++ '<' :: '/' :: (n₂ ++ ['>']))))) ++ (rest₂ ++ rest) =
                '<' :: (n₂ ++ (renderAttrs as₂ ++ '>' ::
                  (inner₂ ++ '<' :: '/' :: (n₂ ++ '>' :: (rest₂ ++ rest))))) := by
              simp [List.append_assoc]
            rw [hflat]
            have hpeekE : Lexer.peek ('<' :: (n₂ ++ (renderAttrs as₂ ++ '>' ::
                (inner₂ ++ '<' :: '/' :: (n₂ ++ '>' :: (rest₂ ++ rest)))))) =
                (.ok .OpenTagStart, '<' :: (n₂ ++ (renderAttrs as₂ ++ '>' ::
                  (inner₂ ++ '<' :: '/' :: (n₂ ++ '>' :: (rest₂ ++ rest)))))) := by
              rw [hndec]
              exact peek_open c₀ _ hslash
            have hpeekWE : Lexer.peek (w ++ ('<' :: (n₂ ++ (renderAttrs as₂ ++ '>' ::
                (inner₂ ++ '<' :: '/' :: (n₂ ++ '>' :: (rest₂ ++ rest))))))) =
                (.ok .OpenTagStart, '<' :: (n₂ ++ (renderAttrs as₂ ++ '>' ::
                  (inner₂ ++ '<' :: '/' :: (n₂ ++ '>' :: (rest₂ ++ rest)))))) := by
              rw [peek_congr _ _ (trim_start_ws_append _ _ hwW)]
              exact hpeekE
            have hnotclose : (Lexer.peek (w ++ ('<' :: (n₂ ++ (renderAttrs as₂ ++ '>' ::
                (inner₂ ++ '<' :: '/' :: (n₂ ++ '>' :: (rest₂ ++ rest)))))))).1 ≠
                .ok .CloseTagStart := by
              rw [hpeekWE]
              simp
            rw [nodes_step_not_close f _ hnotclose]
            rw [show (Lexer.peek (w ++ ('<' :: (n₂ ++ (renderAttrs as₂ ++ '>' ::
                (inner₂ ++ '<' :: '/' :: (n₂ ++ '>' :: (rest₂ ++ rest)))))))).2 =
              '<' :: (n₂ ++ (renderAttrs as₂ ++ '>' ::
                (inner₂ ++ '<' :: '/' :: (n₂ ++ '>' :: (rest₂ ++ rest)))))
              from by rw [hpeekWE]]
            have hf1 : 1 ≤ f := by
              unfold sizeD at hsz
              omega
            cases f with
            | zero => omega
            | succ f' =>
            rw [node_open f' _ _ hpeekE]
            have helem := (ih f' (by omega)).1 n₂ as₂ cs₂ inner₂ (rest₂ ++ rest)
              hn₂ has₂ hcs₂ hrdl₄ (by unfold sizeD at hsz ⊢; omega)
            rw [helem]
            dsimp only
            have hns := (ih (f'+1) (Nat.lt_succ_self (f'+1))).2
              ds rest₂ rest r hwds hrdl₂ (by unfold sizeD at hsz; omega) hrest
            rw [hns]
            rfl

/-- Any rendering of a well-formed document parses to its canonical
tree. -/
theorem parse_render (fuel : Nat) (d : Doc) (s : List Char)
    (hw : wfD d = true) (hr : RD d s) (hf : sizeD d < fuel) :
    parse fuel s = some (.ok (treeOf d)) := by
  cases fuel with
  | zero =>
      exfalso
      have := sizeD_pos d
      omega
  | succ f =>
  cases hr with
  | textR =>
      have hwt : wfText s = true := hw
      obtain ⟨htne, hts, hte, htlt⟩ := wfText_parts s hwt
      obtain ⟨c₀, t', htdec⟩ : ∃ c₀ t', s = c₀ :: t' := by
        cases s with
        | nil => exact absurd rfl htne
        | cons a b => exact ⟨a, b, rfl⟩
      have hc₀ws : is_whitespace c₀ = false :=
        head_not_ws_of_trim_fix c₀ t' (htdec ▸ hts)
      have hc₀mem : c₀ ∈ s := htdec ▸ List.mem_cons_self c₀ t'
      have hc₀lt : c₀ ≠ '<' := by
        intro he
        have h0 := htlt c₀ hc₀mem
        rw [he] at h0
        simp at h0
      have hptag := peek_not_tag c₀ t' hc₀ws hc₀lt
      rw [parse_def]
      have hnotopen : (Lexer.peek s).1 ≠ .ok .OpenTagStart := by
        rw [htdec]
        exact hptag.2.1
      rw [node_not_open f s hnotopen]
      rw [hts]
      have ht1 : Lexer.text_till '<' s = (s, []) := by
        have h0 := text_till_render '<' s [] [] (by decide) htlt hts hte
          (fun c hc => absurd hc (List.not_mem_nil c)) (Or.inl rfl)
        simpa using h0
      rw [ht1]
      rfl
  | elemR n as cs inner hrdl =>
      obtain ⟨hn, has, hcs⟩ := wfD_elem_parts n as cs hw
      obtain ⟨c₀, n', hndec, halpha⟩ := wfName_head n hn
      have hslash : c₀ ≠ '/' := by
        intro he
        rw [he] at halpha
        exact absurd halpha (by decide)
      have hpeek : Lexer.peek ('<' :: (n ++ (renderAttrs as ++ '>' ::
          (inner ++ '<' :: '/' :: (n ++ ['>']))))) =
          (.ok .OpenTagStart, '<' :: (n ++ (renderAttrs as ++ '>' ::
            (inner ++ '<' :: '/' :: (n ++ ['>']))))) := by
        rw [hndec]
        exact peek_open c₀ _ hslash
      rw [parse_def, node_open f _ _ hpeek]
      have helem := (render_parse f).1 n as cs inner [] hn has hcs hrdl
        (by omega)
      rw [helem]

/-- C7: two renderings of the same well-formed document that differ only
in the whitespace between tags parse to the same tree — the canonical
tree of the document, in which whitespace-only gaps between adjacent tags
contribute no (empty) text node.  The closed conjunct shows this on a
concrete document with newlines and indentation between two sibling
elements. -/
theorem C7_whitespace_insensitivity :
    (∀ (fuel : Nat) (d : Doc) (s₁ s₂ : List Char),
        wfD d = true → RD d s₁ → RD d s₂ → sizeD d < fuel →
        parse fuel s₁ = parse fuel s₂ ∧
        parse fuel s₁ = some (.ok (treeOf d))) ∧
    parse 10 (chars "<a>\n  <b></b>\n  <c></c>\n</a>") =
      some (.ok (.elem (chars "a") []
        [.elem (chars "b") [] [], .elem (chars "c") [] []])) := by
  refine ⟨?_, rfl⟩
  intro fuel d s₁ s₂ hw h1 h2 hf
  have p1 := parse_render fuel d s₁ hw h1 hf
  have p2 := parse_render fuel d s₂ hw h2 hf
  exact ⟨p1.trans p2.symm, p1⟩

/-- Witness for C7: the same document rendered without and with
whitespace between the tags, parsed to the same canonical tree. -/
theorem C7_whitespace_insensitivity_witness :
    parse 10 (chars "<a><b></b></a>") = parse 10 (chars "<a> <b></b> </a>") ∧
    parse 10 (chars "<a><b></b></a>") =
      some (.ok (treeOf (.elemD (chars "a") []
        (.consD (.elemD (chars "b") [] .nilD) .nilD)))) :=
  C7_whitespace_insensitivity.1 10
    (.elemD (chars "a") [] (.consD (.elemD (chars "b") [] .nilD) .nilD))
    (chars "<a><b></b></a>") (chars "<a> <b></b> </a>")
    (by decide)
    (RD.elemR (chars "a") [] _ _
      (RDL.consR (.elemD (chars "b") [] .nilD) .nilD [] _ []
        (fun c hc => absurd hc (List.not_mem_nil c))
        (RD.elemR (chars "b") [] .nilD []
          (RDL.nilR [] (fun c hc => absurd hc (List.not_mem_nil c))))
        (RDL.nilR [] (fun c hc => absurd hc (List.not_mem_nil c)))))
    (RD.elemR (chars "a") [] _ _
      (RDL.consR (.elemD (chars "b") [] .nilD) .nilD [' '] _ [' ']
        (fun c hc => by rw [List.mem_singleton.mp hc]; decide)
        (RD.elemR (chars "b") [] .nilD []
          (RDL.nilR [] (fun c hc => absurd hc (List.not_mem_nil c))))
        (RDL.nilR [' '] (fun c hc => by rw [List.mem_singleton.mp hc]; decide))))
    (by decide)
